import Mathlib

/-!
# themis: `web/views/clusters.list.js`

A shallow embedding of the two controllers of `clusters.list.js`:

* `clustersListCtrl` (`loadClusterData`, `$scope.refresh`), which fetches the
  clusters and annotates every cluster with an `autoscale` flag derived from the
  configuration value `autoscaling_clusters`;
* `clusterAutoscaleCtrl`, whose watcher on `cluster.autoscale` rewrites that
  configuration value when the flag of one cluster changes.

A JavaScript string is modelled as the list of its characters.  The only regular
expression of the file, `/\s*,\s*/`, looks at white space and at the comma, all of
which are single UTF-16 code units, so splitting by code units and splitting by
characters cut a string at the same places.

`String.prototype.split` also takes a limit, which is `2^32 - 1` when the argument
is absent, as it is here; no string of an actual engine is long enough to have that
many pieces, and the limit is left out.
-/

namespace Themis

/-! ## Strings, `split` and `join` -/

/-- A JavaScript string, as the list of its characters. -/
abbrev JSString := List Char

/-- The class `\s` of a JavaScript regular expression: the white space characters
and the line terminators of ECMAScript (tab, line feed, vertical tab, form feed,
carriage return, space, no-break space, the space separators of Unicode, line and
paragraph separator, byte order mark).  The comma is not one of them, which is all
the proofs use. -/
def isWhiteSpace (c : Char) : Bool :=
  let n := c.toNat
  n == 0x09 || n == 0x0A || n == 0x0B || n == 0x0C || n == 0x0D || n == 0x20 ||
  n == 0xA0 || n == 0x1680 || (0x2000 ≤ n && n ≤ 0x200A) || n == 0x2028 ||
  n == 0x2029 || n == 0x202F || n == 0x205F || n == 0x3000 || n == 0xFEFF

/-- One attempt to match `/\s*,\s*/` at the start of `s` (the sticky match that
`split` makes at position `q`).  Both `\s*` are greedy; giving back white space
never helps the first one, since the character it gives back is not a comma.  The
result is what is left of `s` after the match. -/
def matchSeparator (s : JSString) : Option JSString :=
  match s.dropWhile isWhiteSpace with
  | [] => none
  | c :: rest => if c = ',' then some (rest.dropWhile isWhiteSpace) else none

/-- The loop of `String.prototype.split` for the separator `/\s*,\s*/`.  `tok` is
the piece `S[p..q)` read since the last separator, the list is `S[q..)`.  A match
at `q` is never empty, so it always ends a piece and the scan goes on after it; no
match moves `q` one character on.  The recursion is on `fuel`, one unit per turn of
the loop. -/
def splitLoop : Nat → JSString → JSString → List JSString
  | 0, tok, _ => [tok]
  | _ + 1, tok, [] => [tok]
  | fuel + 1, tok, c :: cs =>
    match matchSeparator (c :: cs) with
    | some rest => tok :: splitLoop fuel [] rest
    | none => splitLoop fuel (tok ++ [c]) cs

/-- The pieces of `s` from a state of the loop, with fuel for every character. -/
def splitFrom (tok s : JSString) : List JSString :=
  splitLoop s.length tok s

/-- The call `s.split(/\s*,\s*/)`.  On the empty string the separator does not
match, and the result is the one piece `""`. -/
def split (s : JSString) : List JSString :=
  splitFrom [] s

/-- The call `xs.join(',')` on an array of strings. -/
def join : List JSString → JSString
  | [] => []
  | [t] => t
  | t :: t' :: ts => t ++ ',' :: join (t' :: ts)

/-- The index of the first element of `xs` that is `x`, counted from `k`, or `-1`. -/
def indexOfFrom (xs : List JSString) (x : JSString) (k : Int) : Int :=
  match xs with
  | [] => -1
  | y :: ys => if y = x then k else indexOfFrom ys x (k + 1)

/-- The call `xs.indexOf(x)` on an array of strings: strict equality, first match. -/
def indexOf (xs : List JSString) (x : JSString) : Int :=
  indexOfFrom xs x 0

/-- Modelled from the spec: `$scope.arrayRemove`, a helper of a parent scope that
is defined outside `clusters.list.js`.  The spec has it remove every occurrence of
the id from the sequence. -/
def arrayRemove (xs : List JSString) (x : JSString) : List JSString :=
  xs.filter (fun y => y ≠ x)

/-! ## The collaborators -/

/-- A cluster as the controllers see it: its `id` and the derived `autoscale` field,
which is `none` while the field is `undefined`. -/
structure Cluster where
  id : JSString
  autoscale : Option Bool
deriving DecidableEq

/-- A call made on `appConfig`. -/
inductive StoreCall where
  | getConfigValue (key : JSString)
  | setConfigValue (key value : JSString)
deriving DecidableEq

/-- Modelled from the spec: the service `appConfig`, which is defined outside
`clusters.list.js`.  The spec gives it one named string value, `autoscaling_clusters`,
read and written in full through promises that may be rejected: `readFails` and
`writeFails` say whether the next read and the next write are rejected. -/
structure AppConfig where
  autoscaling_clusters : JSString
  readFails : Bool
  writeFails : Bool
deriving DecidableEq

/-- The key of the membership string. -/
def autoscalingKey : JSString := "autoscaling_clusters".toList

/-- Modelled from the spec: `appConfig.getConfigValue(key)`; `none` is a rejected
promise. -/
def AppConfig.getConfigValue (cfg : AppConfig) (key : JSString) : Option JSString :=
  if cfg.readFails then none
  else if key = autoscalingKey then some cfg.autoscaling_clusters else none

/-- Modelled from the spec: `appConfig.setConfigValue(key, value)`, which replaces
the whole value; `none` is a rejected promise. -/
def AppConfig.setConfigValue (cfg : AppConfig) (key value : JSString) : Option AppConfig :=
  if cfg.writeFails then none
  else if key = autoscalingKey then some { cfg with autoscaling_clusters := value } else none

/-- What a run of one of the two controllers leaves behind outside its scope: the
configuration store, the calls made on it in order, the lines written with
`console.log`, and the number of rejected promises that had no rejection handler. -/
structure Effects where
  config : AppConfig
  calls : List StoreCall
  console : List JSString
  unhandled : Nat
deriving DecidableEq

/-! ## `clusterAutoscaleCtrl` -/

/-- The condition `if(newVal)` on a flag that is `undefined`, `true` or `false`. -/
def truthy (v : Option Bool) : Bool :=
  v == some true

/-- The value the watcher writes when it has read `s`: split, remove the id of the
cluster, push it again when the new value is truthy, join. -/
def toggleValue (s id : JSString) (newVal : Option Bool) : JSString :=
  let autoscaleClusters := arrayRemove (split s) id
  let autoscaleClusters := if truthy newVal then autoscaleClusters ++ [id] else autoscaleClusters
  join autoscaleClusters

/-- The listener of `$scope.$watch('cluster.autoscale', ...)` for the cluster with
the given id, run on the store `cfg`. -/
def watchAutoscale (id : JSString) (newVal oldVal : Option Bool) (cfg : AppConfig) : Effects :=
  match oldVal with
  | none => { config := cfg, calls := [], console := [], unhandled := 0 }
  | some _ =>
    match cfg.getConfigValue autoscalingKey with
    | none =>
      { config := cfg, calls := [.getConfigValue autoscalingKey], console := [], unhandled := 1 }
    | some s =>
      let w := toggleValue s id newVal
      let calls := [.getConfigValue autoscalingKey, .setConfigValue autoscalingKey w]
      match cfg.setConfigValue autoscalingKey w with
      | none => { config := cfg, calls := calls, console := [], unhandled := 1 }
      | some cfg' =>
        { config := cfg', calls := calls,
          console := ["Successfully updated configuration.".toList], unhandled := 0 }

/-! ## `clustersListCtrl` -/

/-- The scope of `clustersListCtrl`; a field is `none` while it is `undefined`. -/
structure ListScope where
  loading : Option Bool
  clusters : Option (List Cluster)
deriving DecidableEq

/-- The outcome of `client.default.getClusters()`: rejected with an error, or
resolved with an object whose `obj.results` are the clusters. -/
inductive Listing where
  | failed (err : JSString)
  | fetched (results : List Cluster)
deriving DecidableEq

/-- The promise `restClient`: rejected, or resolved with a client whose listing
request has the given outcome. -/
inductive RestClient where
  | rejected
  | resolved (getClusters : Listing)
deriving DecidableEq

/-- The scope and the effects after a run of `$scope.refresh`. -/
structure Refreshed where
  scope : ListScope
  effects : Effects
deriving DecidableEq

/-- The body of the `forEach` of `loadClusterData` over the whole collection. -/
def annotate (autoscaleClusters : List JSString) (clusters : List Cluster) : List Cluster :=
  clusters.map fun cluster =>
    { cluster with autoscale := some (decide (indexOf autoscaleClusters cluster.id ≥ 0)) }

/-- The function `loadClusterData`, called with `data.results`. -/
def loadClusterData (results : List Cluster) (scope : ListScope) (cfg : AppConfig) : Refreshed :=
  let scope := { scope with clusters := some results }
  match cfg.getConfigValue autoscalingKey with
  | none =>
    { scope := scope,
      effects := { config := cfg, calls := [.getConfigValue autoscalingKey], console := [],
                   unhandled := 1 } }
  | some s =>
    { scope := { scope with clusters := some (annotate (split s) results) },
      effects := { config := cfg, calls := [.getConfigValue autoscalingKey], console := [],
                   unhandled := 0 } }

/-- The function `$scope.refresh`. -/
def refresh (client : RestClient) (scope : ListScope) (cfg : AppConfig) : Refreshed :=
  match client with
  | .rejected =>
    { scope := scope, effects := { config := cfg, calls := [], console := [], unhandled := 1 } }
  | .resolved getClusters =>
    let scope := { scope with loading := some true }
    match getClusters with
    | .fetched results =>
      let scope := { scope with loading := some false }
      loadClusterData results scope cfg
    | .failed err =>
      let scope := { scope with loading := some false }
      { scope := scope, effects := { config := cfg, calls := [], console := [err], unhandled := 0 } }

/-! ## Vocabulary of the statements -/

/-- The string begins with a white space character. -/
def startsWs : JSString → Bool
  | [] => false
  | c :: _ => isWhiteSpace c

/-- The string ends with a white space character. -/
def endsWs : JSString → Bool
  | [] => false
  | [c] => isWhiteSpace c
  | _ :: c :: cs => endsWs (c :: cs)

/-- The string without the white space at its end. -/
def trimEnd : JSString → JSString
  | [] => []
  | c :: cs => if (c :: cs).all isWhiteSpace then [] else c :: trimEnd cs

/-- The array with the white space cut from the end of every element but the last. -/
def trimInit : List JSString → List JSString
  | [] => []
  | [t] => [t]
  | t :: t' :: ts => trimEnd t :: trimInit (t' :: ts)

/-- A well-formed id: not empty, no comma, no white space. -/
def IsId (x : JSString) : Prop :=
  x ≠ [] ∧ ',' ∉ x ∧ ∀ c ∈ x, isWhiteSpace c = false

instance (x : JSString) : Decidable (IsId x) := by
  unfold IsId; infer_instance

/-- All characters of the string are white space. -/
def IsBlank (x : JSString) : Prop :=
  ∀ c ∈ x, isWhiteSpace c = true

instance (x : JSString) : Decidable (IsBlank x) := by
  unfold IsBlank; infer_instance

/-- The id `x` followed by more ids, each after a comma with white space `before`
and `after` it: the entries of `rest` are `(before, after, id)`. -/
def spaced (x : JSString) : List (JSString × JSString × JSString) → JSString
  | [] => x
  | (before, after, y) :: rest => x ++ before ++ ',' :: after ++ spaced y rest

/-- The ids of the entries of `spaced`. -/
def idsOf (rest : List (JSString × JSString × JSString)) : List JSString :=
  rest.map fun e => e.2.2

/-- The entries of `spaced` are white space around the commas and well-formed ids. -/
def SpacedOk (rest : List (JSString × JSString × JSString)) : Prop :=
  ∀ e ∈ rest, IsBlank e.1 ∧ IsBlank e.2.1 ∧ IsId e.2.2

instance (rest : List (JSString × JSString × JSString)) : Decidable (SpacedOk rest) := by
  unfold SpacedOk; infer_instance

/-- The array with `lead` put in front of its first element. -/
def prependFirst (lead : JSString) : List JSString → List JSString
  | [] => []
  | x :: xs => (lead ++ x) :: xs

/-- The array with `trail` put after its last element. -/
def appendLast (trail : JSString) : List JSString → List JSString
  | [] => []
  | [x] => [x ++ trail]
  | x :: y :: ys => x :: appendLast trail (y :: ys)

/-- The last piece of `s` ends with white space. -/
def lastPieceEndsWs (s : JSString) : Bool :=
  match (split s).getLast? with
  | some t => endsWs t
  | none => false

/-! ## The loop of `split` -/

theorem dropWhile_length_le (p : Char → Bool) (s : JSString) :
    (s.dropWhile p).length ≤ s.length := by
  induction s with
  | nil => simp
  | cons c cs ih =>
    simp only [List.dropWhile_cons]
    split
    · simp only [List.length_cons]; omega
    · exact Nat.le_refl _

theorem matchSeparator_length {s rest : JSString} (h : matchSeparator s = some rest) :
    rest.length < s.length := by
  unfold matchSeparator at h
  have hlen := dropWhile_length_le isWhiteSpace s
  split at h
  · cases h
  · next c r heq =>
    split at h
    · cases h
      have h2 := dropWhile_length_le isWhiteSpace r
      rw [heq] at hlen
      simp only [List.length_cons] at hlen
      omega
    · cases h

theorem splitLoop_cons (n : Nat) (tok : JSString) (c : Char) (cs : JSString) :
    splitLoop (n + 1) tok (c :: cs) =
      match matchSeparator (c :: cs) with
      | some rest => tok :: splitLoop n [] rest
      | none => splitLoop n (tok ++ [c]) cs := rfl

theorem splitLoop_fuel (n : Nat) : ∀ (tok s : JSString), s.length ≤ n →
    splitLoop n tok s = splitLoop s.length tok s := by
  induction n using Nat.strong_induction_on with
  | _ n ih =>
    intro tok s hs
    cases s with
    | nil => cases n <;> rfl
    | cons c cs =>
      cases n with
      | zero => simp at hs
      | succ n =>
        simp only [List.length_cons] at hs
        rw [List.length_cons, splitLoop_cons, splitLoop_cons]
        cases hm : matchSeparator (c :: cs) with
        | none =>
          show splitLoop n (tok ++ [c]) cs = splitLoop cs.length (tok ++ [c]) cs
          exact ih n (Nat.lt_succ_self n) _ cs (by omega)
        | some rest =>
          have hl := matchSeparator_length hm
          simp only [List.length_cons] at hl
          show tok :: splitLoop n [] rest = tok :: splitLoop cs.length [] rest
          rw [ih n (Nat.lt_succ_self n) _ rest (by omega),
            ih cs.length (by omega) _ rest (by omega)]

@[simp] theorem splitFrom_nil (tok : JSString) : splitFrom tok [] = [tok] := rfl

theorem splitFrom_some {tok : JSString} {c : Char} {cs rest : JSString}
    (h : matchSeparator (c :: cs) = some rest) :
    splitFrom tok (c :: cs) = tok :: splitFrom [] rest := by
  have hl := matchSeparator_length h
  simp only [List.length_cons] at hl
  unfold splitFrom
  rw [List.length_cons, splitLoop_cons, h]
  show tok :: splitLoop cs.length [] rest = tok :: splitLoop rest.length [] rest
  rw [splitLoop_fuel cs.length _ rest (by omega)]

theorem splitFrom_none {tok : JSString} {c : Char} {cs : JSString}
    (h : matchSeparator (c :: cs) = none) :
    splitFrom tok (c :: cs) = splitFrom (tok ++ [c]) cs := by
  unfold splitFrom
  rw [List.length_cons, splitLoop_cons, h]

/-! ## The separator -/

theorem comma_not_ws : isWhiteSpace ',' = false := by decide

@[simp] theorem matchSeparator_nil : matchSeparator [] = none := rfl

theorem matchSeparator_ws {c : Char} (h : isWhiteSpace c = true) (cs : JSString) :
    matchSeparator (c :: cs) = matchSeparator cs := by
  simp only [matchSeparator, List.dropWhile_cons_of_pos h]

theorem matchSeparator_comma (r : JSString) :
    matchSeparator (',' :: r) = some (r.dropWhile isWhiteSpace) := by
  have h : ¬ (isWhiteSpace ',' = true) := by simp [comma_not_ws]
  simp only [matchSeparator, List.dropWhile_cons_of_neg h, if_true]

theorem matchSeparator_other {c : Char} (hw : isWhiteSpace c = false) (hc : c ≠ ',')
    (cs : JSString) : matchSeparator (c :: cs) = none := by
  have h : ¬ (isWhiteSpace c = true) := by simp [hw]
  simp only [matchSeparator, List.dropWhile_cons_of_neg h, if_neg hc]

/-- In front of a comma, a string without a comma is skipped by the separator
exactly when it is all white space. -/
theorem matchSeparator_append_comma (t r : JSString) (hc : ',' ∉ t) :
    matchSeparator (t ++ ',' :: r) =
      if t.all isWhiteSpace then some (r.dropWhile isWhiteSpace) else none := by
  induction t with
  | nil => simpa using matchSeparator_comma r
  | cons c t ih =>
    have hc' : ',' ∉ t := fun h => hc (List.mem_cons_of_mem _ h)
    have hne : c ≠ ',' := fun h => hc (h ▸ List.mem_cons_self _ _)
    cases hw : isWhiteSpace c with
    | true =>
      rw [List.cons_append, matchSeparator_ws hw, ih hc']
      simp [hw]
    | false =>
      rw [List.cons_append, matchSeparator_other hw hne]
      simp [hw]

/-- The separator does not match a string without a comma. -/
theorem matchSeparator_noComma (t : JSString) (hc : ',' ∉ t) : matchSeparator t = none := by
  induction t with
  | nil => rfl
  | cons c t ih =>
    have hc' : ',' ∉ t := fun h => hc (List.mem_cons_of_mem _ h)
    have hne : c ≠ ',' := fun h => hc (h ▸ List.mem_cons_self _ _)
    cases hw : isWhiteSpace c with
    | true => rw [matchSeparator_ws hw, ih hc']
    | false => exact matchSeparator_other hw hne t

/-- A character where the separator does not match is not a comma. -/
theorem ne_comma_of_matchSeparator_none {c : Char} {cs : JSString}
    (h : matchSeparator (c :: cs) = none) : c ≠ ',' := by
  intro hc
  subst hc
  rw [matchSeparator_comma] at h
  cases h

theorem startsWs_dropWhile (s : JSString) : startsWs (s.dropWhile isWhiteSpace) = false := by
  induction s with
  | nil => rfl
  | cons c cs ih =>
    cases hw : isWhiteSpace c with
    | true => rw [List.dropWhile_cons_of_pos hw]; exact ih
    | false =>
      have h : ¬ (isWhiteSpace c = true) := by simp [hw]
      rw [List.dropWhile_cons_of_neg h]
      exact hw

theorem dropWhile_of_not_startsWs {s : JSString} (h : startsWs s = false) :
    s.dropWhile isWhiteSpace = s := by
  cases s with
  | nil => rfl
  | cons c cs =>
    have h' : ¬ (isWhiteSpace c = true) := by simpa [startsWs] using h
    exact List.dropWhile_cons_of_neg h'

/-- What is left after a match of the separator does not begin with white space. -/
theorem startsWs_of_matchSeparator {s rest : JSString} (h : matchSeparator s = some rest) :
    startsWs rest = false := by
  unfold matchSeparator at h
  split at h
  · cases h
  · split at h
    · cases h; exact startsWs_dropWhile _
    · cases h

/-! ## Induction along the loop -/

/-- The induction principle of the loop: a property of every state follows from the
three ways a state is left. -/
theorem splitFrom_induction {P : JSString → JSString → Prop}
    (atEnd : ∀ tok, P tok [])
    (atSep : ∀ tok c cs rest, matchSeparator (c :: cs) = some rest → P [] rest → P tok (c :: cs))
    (atChar : ∀ tok c cs, matchSeparator (c :: cs) = none → P (tok ++ [c]) cs → P tok (c :: cs)) :
    ∀ tok s, P tok s := by
  have key : ∀ n, ∀ tok s, s.length ≤ n → P tok s := by
    intro n
    induction n with
    | zero =>
      intro tok s hs
      cases s with
      | nil => exact atEnd tok
      | cons c cs => simp at hs
    | succ n ih =>
      intro tok s hs
      cases s with
      | nil => exact atEnd tok
      | cons c cs =>
        simp only [List.length_cons] at hs
        cases hm : matchSeparator (c :: cs) with
        | none => exact atChar tok c cs hm (ih _ cs (by omega))
        | some rest =>
          have hl := matchSeparator_length hm
          simp only [List.length_cons] at hl
          exact atSep tok c cs rest hm (ih _ rest (by omega))
  intro tok s
  exact key s.length tok s (Nat.le_refl _)

theorem splitFrom_ne_nil (tok s : JSString) : splitFrom tok s ≠ [] := by
  refine splitFrom_induction (P := fun tok s => splitFrom tok s ≠ []) ?_ ?_ ?_ tok s
  · intro tok; simp
  · intro tok c cs rest hm _; rw [splitFrom_some hm]; simp
  · intro tok c cs hm ih; rw [splitFrom_none hm]; exact ih

/-! ## The pieces of `split` -/

/-- No piece has a comma in it. -/
theorem splitFrom_noComma (tok s : JSString) :
    ',' ∉ tok → ∀ t ∈ splitFrom tok s, ',' ∉ t := by
  refine splitFrom_induction
    (P := fun tok s => ',' ∉ tok → ∀ t ∈ splitFrom tok s, ',' ∉ t) ?_ ?_ ?_ tok s
  · intro tok h t ht
    simp only [splitFrom_nil, List.mem_singleton] at ht
    exact ht ▸ h
  · intro tok c cs rest hm ih h t ht
    rw [splitFrom_some hm, List.mem_cons] at ht
    rcases ht with rfl | ht
    · exact h
    · exact ih (by simp) t ht
  · intro tok c cs hm ih h t ht
    rw [splitFrom_none hm] at ht
    refine ih ?_ t ht
    have hne := ne_comma_of_matchSeparator_none hm
    intro hmem
    rcases List.mem_append.mp hmem with h1 | h1
    · exact h h1
    · exact hne (List.mem_singleton.mp h1).symm

theorem endsWs_concat (t : JSString) (c : Char) : endsWs (t ++ [c]) = isWhiteSpace c := by
  induction t with
  | nil => rfl
  | cons a t ih =>
    cases t with
    | nil => rfl
    | cons b t => exact ih

/-- No piece but the last ends with white space. -/
theorem splitFrom_dropLast_endsWs (tok s : JSString) :
    (endsWs tok = true → matchSeparator s = none) →
      ∀ t ∈ (splitFrom tok s).dropLast, endsWs t = false := by
  refine splitFrom_induction
    (P := fun tok s => (endsWs tok = true → matchSeparator s = none) →
      ∀ t ∈ (splitFrom tok s).dropLast, endsWs t = false) ?_ ?_ ?_ tok s
  · intro tok _ t ht
    simp at ht
  · intro tok c cs rest hm ih h t ht
    rw [splitFrom_some hm, List.dropLast_cons_of_ne_nil (splitFrom_ne_nil _ _),
      List.mem_cons] at ht
    rcases ht with rfl | ht
    · cases he : endsWs t with
      | false => rfl
      | true => rw [h he] at hm; cases hm
    · exact ih (fun he => by cases he) t ht
  · intro tok c cs hm ih h t ht
    rw [splitFrom_none hm] at ht
    refine ih ?_ t ht
    intro he
    rw [endsWs_concat] at he
    rw [← matchSeparator_ws he cs]
    exact hm

theorem startsWs_append_left {t r : JSString} (h : startsWs (t ++ r) = false) :
    startsWs t = false := by
  cases t with
  | nil => rfl
  | cons c t => exact h

/-- No piece but the first begins with white space, and the first does not either
when the string does not. -/
theorem splitFrom_startsWs (tok s : JSString) :
    (startsWs (tok ++ s) = false → ∀ t ∈ splitFrom tok s, startsWs t = false) ∧
      ∀ t ∈ (splitFrom tok s).tail, startsWs t = false := by
  refine splitFrom_induction
    (P := fun tok s =>
      (startsWs (tok ++ s) = false → ∀ t ∈ splitFrom tok s, startsWs t = false) ∧
        ∀ t ∈ (splitFrom tok s).tail, startsWs t = false) ?_ ?_ ?_ tok s
  · intro tok
    constructor
    · intro h t ht
      simp only [splitFrom_nil, List.mem_singleton] at ht
      subst ht
      simpa using h
    · intro t ht
      simp at ht
  · intro tok c cs rest hm ih
    have hrest : ∀ t ∈ splitFrom [] rest, startsWs t = false :=
      ih.1 (by simpa using startsWs_of_matchSeparator hm)
    rw [splitFrom_some hm]
    constructor
    · intro h t ht
      rcases List.mem_cons.mp ht with rfl | ht
      · exact startsWs_append_left h
      · exact hrest t ht
    · intro t ht
      exact hrest t ht
  · intro tok c cs hm ih
    rw [splitFrom_none hm]
    constructor
    · intro h
      exact ih.1 (by simpa using h)
    · exact ih.2

/-- The three facts about the pieces of a string. -/
theorem split_shape (s : JSString) :
    (∀ t ∈ split s, ',' ∉ t) ∧ (∀ t ∈ (split s).dropLast, endsWs t = false) ∧
      ∀ t ∈ (split s).tail, startsWs t = false :=
  ⟨splitFrom_noComma [] s (by simp),
   splitFrom_dropLast_endsWs [] s (fun h => by cases h),
   (splitFrom_startsWs [] s).2⟩

/-! ## Splitting a joined array -/

/-- A string without a comma is scanned up to the comma that follows it: the piece
is the string without the white space at its end. -/
theorem splitFrom_append_comma (t r : JSString) (hc : ',' ∉ t) (tok : JSString) :
    splitFrom tok (t ++ ',' :: r) =
      (tok ++ trimEnd t) :: splitFrom [] (r.dropWhile isWhiteSpace) := by
  induction t generalizing tok with
  | nil =>
    rw [List.nil_append, splitFrom_some (matchSeparator_comma r)]
    simp [trimEnd]
  | cons c t ih =>
    have hc' : ',' ∉ t := fun h => hc (List.mem_cons_of_mem _ h)
    have hm := matchSeparator_append_comma (c :: t) r hc
    rw [List.cons_append] at hm ⊢
    cases hall : (c :: t).all isWhiteSpace with
    | true =>
      rw [hall, if_pos rfl] at hm
      rw [splitFrom_some hm]
      simp [trimEnd, hall]
    | false =>
      rw [hall] at hm
      rw [splitFrom_none (by simpa using hm), ih hc']
      simp [trimEnd, hall]

/-- A string without a comma is one piece. -/
theorem splitFrom_noComma_eq (t : JSString) (hc : ',' ∉ t) (tok : JSString) :
    splitFrom tok t = [tok ++ t] := by
  induction t generalizing tok with
  | nil => simp
  | cons c t ih =>
    have hc' : ',' ∉ t := fun h => hc (List.mem_cons_of_mem _ h)
    rw [splitFrom_none (matchSeparator_noComma _ hc), ih hc']
    simp

theorem startsWs_join {t : JSString} (ts : List JSString) (h : startsWs t = false) :
    startsWs (join (t :: ts)) = false := by
  cases ts with
  | nil => exact h
  | cons t' ts =>
    cases t with
    | nil => exact comma_not_ws
    | cons c t => exact h

/-- Splitting a joined array gives the array back, up to the white space at the end
of the elements that are no longer last. -/
theorem split_join (L : List JSString) (hne : L ≠ []) (hc : ∀ t ∈ L, ',' ∉ t)
    (hs : ∀ t ∈ L.tail, startsWs t = false) : split (join L) = trimInit L := by
  unfold split
  induction L with
  | nil => exact absurd rfl hne
  | cons t ts ih =>
    cases ts with
    | nil =>
      simp only [join, trimInit]
      rw [splitFrom_noComma_eq t (hc t (List.mem_cons_self _ _))]
      simp
    | cons t' ts =>
      have hst : startsWs t' = false := hs t' (by simp)
      simp only [join, trimInit]
      rw [splitFrom_append_comma t _ (hc t (List.mem_cons_self _ _)),
        dropWhile_of_not_startsWs (startsWs_join ts hst),
        ih (by simp) (fun x hx => hc x (List.mem_cons_of_mem _ hx))
          (fun x hx => hs x (by simpa using List.mem_of_mem_tail hx))]
      simp

theorem trimEnd_of_not_endsWs (t : JSString) (h : endsWs t = false) : trimEnd t = t := by
  induction t with
  | nil => rfl
  | cons c t ih =>
    cases t with
    | nil =>
      have hw : isWhiteSpace c = false := h
      simp [trimEnd, hw]
    | cons b t =>
      have h' : endsWs (b :: t) = false := h
      have hall : (c :: b :: t).all isWhiteSpace = false := by
        by_contra hcon
        have hcon' : (c :: b :: t).all isWhiteSpace = true := by simpa using hcon
        have hne : trimEnd (b :: t) = [] := by
          have : (b :: t).all isWhiteSpace = true := by
            simp only [List.all_cons, Bool.and_eq_true] at hcon' ⊢
            exact hcon'.2
          simp [trimEnd, this]
        rw [ih h'] at hne
        cases hne
      rw [trimEnd, hall, ih h']
      simp

theorem trimInit_of_not_endsWs (L : List JSString)
    (h : ∀ t ∈ L.dropLast, endsWs t = false) : trimInit L = L := by
  induction L with
  | nil => rfl
  | cons t ts ih =>
    cases ts with
    | nil => rfl
    | cons t' ts =>
      have h1 : endsWs t = false := h t (by simp)
      have h2 : ∀ x ∈ (t' :: ts).dropLast, endsWs x = false := fun x hx =>
        h x (by rw [List.dropLast_cons_of_ne_nil (by simp)]; exact List.mem_cons_of_mem _ hx)
      simp only [trimInit]
      rw [trimEnd_of_not_endsWs t h1, ih h2]

/-- Splitting a joined array gives the array back when its elements have no comma,
none but the last ends with white space and none but the first begins with it. -/
theorem split_join_eq (L : List JSString) (hne : L ≠ []) (hc : ∀ t ∈ L, ',' ∉ t)
    (he : ∀ t ∈ L.dropLast, endsWs t = false)
    (hs : ∀ t ∈ L.tail, startsWs t = false) : split (join L) = L := by
  rw [split_join L hne hc hs, trimInit_of_not_endsWs L he]

/-! ## `indexOf` and the annotation -/

theorem indexOfFrom_nonneg (xs : List JSString) (x : JSString) (k : Int) (hk : 0 ≤ k) :
    0 ≤ indexOfFrom xs x k ↔ x ∈ xs := by
  induction xs generalizing k with
  | nil => simp [indexOfFrom]
  | cons y ys ih =>
    unfold indexOfFrom
    by_cases h : y = x
    · simp [h, hk]
    · rw [if_neg h, ih (k + 1) (by omega)]
      constructor
      · exact fun hm => List.mem_cons_of_mem _ hm
      · intro hm
        rcases List.mem_cons.mp hm with rfl | hm
        · exact absurd rfl h
        · exact hm

theorem indexOf_nonneg (xs : List JSString) (x : JSString) : indexOf xs x ≥ 0 ↔ x ∈ xs :=
  indexOfFrom_nonneg xs x 0 (Int.le_refl 0)

/-- The annotation sets the flag of a cluster to whether its id is one of the tokens. -/
theorem annotate_eq (tokens : List JSString) (clusters : List Cluster) :
    annotate tokens clusters =
      clusters.map fun c => { c with autoscale := some (decide (c.id ∈ tokens)) } := by
  unfold annotate
  refine List.map_congr_left fun c _ => ?_
  have h : decide (indexOf tokens c.id ≥ 0) = decide (c.id ∈ tokens) :=
    decide_eq_decide.mpr (indexOf_nonneg tokens c.id)
  rw [h]

theorem getConfigValue_ok (cfg : AppConfig) (h : cfg.readFails = false) :
    cfg.getConfigValue autoscalingKey = some cfg.autoscaling_clusters := by
  simp [AppConfig.getConfigValue, h]

/-- A refresh whose listing request and store read succeed exposes the fetched
clusters annotated with the tokens of the stored value. -/
theorem refresh_clusters (results : List Cluster) (scope : ListScope) (cfg : AppConfig)
    (h : cfg.readFails = false) :
    (refresh (.resolved (.fetched results)) scope cfg).scope.clusters =
      some (results.map fun c =>
        { c with autoscale := some (decide (c.id ∈ split cfg.autoscaling_clusters)) }) := by
  simp only [refresh, loadClusterData, getConfigValue_ok cfg h, annotate_eq]

/-! ## Ids, white space and arrays -/

theorem IsId.startsWs {x : JSString} (h : IsId x) : startsWs x = false := by
  cases x with
  | nil => rfl
  | cons c x => exact h.2.2 c (List.mem_cons_self _ _)

theorem endsWs_eq_false_of_forall (x : JSString) (h : ∀ c ∈ x, isWhiteSpace c = false) :
    endsWs x = false := by
  induction x with
  | nil => rfl
  | cons c x ih =>
    cases x with
    | nil => exact h c (List.mem_cons_self _ _)
    | cons b x => exact ih fun d hd => h d (List.mem_cons_of_mem _ hd)

theorem IsId.endsWs {x : JSString} (h : IsId x) : endsWs x = false :=
  endsWs_eq_false_of_forall x h.2.2

theorem IsBlank.noComma {x : JSString} (h : IsBlank x) : ',' ∉ x := by
  intro hm
  have := h ',' hm
  rw [comma_not_ws] at this
  cases this

theorem mem_dropLast_filter (p : JSString → Bool) (L : List JSString) (t : JSString)
    (h : t ∈ (L.filter p).dropLast) : t ∈ L.dropLast := by
  induction L with
  | nil => simp at h
  | cons a L ih =>
    by_cases hp : p a = true
    · rw [List.filter_cons_of_pos hp] at h
      by_cases hf : L.filter p = []
      · rw [hf] at h; simp at h
      · have hL : L ≠ [] := by
          intro hnil; rw [hnil] at hf; exact hf rfl
        rw [List.dropLast_cons_of_ne_nil hf] at h
        rw [List.dropLast_cons_of_ne_nil hL]
        rcases List.mem_cons.mp h with rfl | h
        · exact List.mem_cons_self _ _
        · exact List.mem_cons_of_mem _ (ih h)
    · rw [List.filter_cons_of_neg hp] at h
      have h' := ih h
      have hL : L ≠ [] := by
        intro hnil; rw [hnil] at h'; simp at h'
      rw [List.dropLast_cons_of_ne_nil hL]
      exact List.mem_cons_of_mem _ h'

theorem mem_tail_filter (p : JSString → Bool) (L : List JSString) (t : JSString)
    (h : t ∈ (L.filter p).tail) : t ∈ L.tail :=
  (List.filter_sublist L).tail.subset h

theorem mem_tail_concat (A : List JSString) (c t : JSString) (h : t ∈ (A ++ [c]).tail) :
    t ∈ A.tail ∨ t = c := by
  cases A with
  | nil => simp at h
  | cons a A =>
    simp only [List.cons_append, List.tail_cons, List.mem_append, List.mem_singleton] at h
    exact h

theorem trimInit_concat (A : List JSString) (c : JSString) :
    trimInit (A ++ [c]) = A.map trimEnd ++ [c] := by
  induction A with
  | nil => rfl
  | cons a A ih =>
    cases A with
    | nil => rfl
    | cons b A =>
      have : trimInit (a :: b :: A ++ [c]) = trimEnd a :: trimInit (b :: A ++ [c]) := rfl
      rw [this, ih]
      rfl

theorem mem_split_of_mem_dropLast_or_last (s t : JSString) (h : t ∈ split s) :
    t ∈ (split s).dropLast ∨ (split s).getLast? = some t := by
  have hne : split s ≠ [] := splitFrom_ne_nil [] s
  have hd := List.dropLast_concat_getLast hne
  rw [← hd] at h
  rcases List.mem_append.mp h with h | h
  · exact Or.inl h
  · right
    rw [List.mem_singleton] at h
    rw [h, List.getLast?_eq_getLast _ hne]

/-- No piece of `s` ends with white space when the last one does not. -/
theorem split_endsWs (s : JSString) (h : lastPieceEndsWs s = false) :
    ∀ t ∈ split s, endsWs t = false := by
  intro t ht
  rcases mem_split_of_mem_dropLast_or_last s t ht with h1 | h1
  · exact (split_shape s).2.1 t h1
  · simpa [lastPieceEndsWs, h1] using h

/-! ## The value written by a toggle -/

theorem arrayRemove_noComma (s id : JSString) : ∀ t ∈ arrayRemove (split s) id, ',' ∉ t :=
  fun t ht => (split_shape s).1 t (List.mem_of_mem_filter ht)

theorem mem_arrayRemove (xs : List JSString) (x t : JSString) :
    t ∈ arrayRemove xs x ↔ t ∈ xs ∧ t ≠ x := by
  simp [arrayRemove, List.mem_filter]

/-- The pieces of the value written when the new flag is `true`: the pieces of `s`
other than the id, each without the white space at its end, then the id. -/
theorem split_toggleValue_true (s id : JSString) (hid : IsId id) :
    split (toggleValue s id (some true)) = (arrayRemove (split s) id).map trimEnd ++ [id] := by
  have hval : toggleValue s id (some true) = join (arrayRemove (split s) id ++ [id]) := by
    simp [toggleValue, truthy]
  rw [hval, split_join _ (by simp), trimInit_concat]
  · intro t ht
    rcases List.mem_append.mp ht with h | h
    · exact arrayRemove_noComma s id t h
    · rw [List.mem_singleton.mp h]; exact hid.2.1
  · intro t ht
    rcases mem_tail_concat _ _ _ ht with h | h
    · exact (split_shape s).2.2 t (mem_tail_filter _ _ _ h)
    · rw [h]; exact hid.startsWs

/-- The pieces of the value written when the new flag is not `true`: the pieces of
`s` other than the id, or the empty string alone when there is none. -/
theorem split_toggleValue_false (s id : JSString) (v : Option Bool) (hv : truthy v = false) :
    split (toggleValue s id v) =
      if arrayRemove (split s) id = [] then [[]] else arrayRemove (split s) id := by
  have hval : toggleValue s id v = join (arrayRemove (split s) id) := by
    simp [toggleValue, hv]
  rw [hval]
  by_cases hnil : arrayRemove (split s) id = []
  · rw [if_pos hnil, hnil]
    rfl
  · rw [if_neg hnil]
    refine split_join_eq _ hnil (arrayRemove_noComma s id) ?_ ?_
    · intro t ht
      exact (split_shape s).2.1 t (mem_dropLast_filter _ _ _ ht)
    · intro t ht
      exact (split_shape s).2.2 t (mem_tail_filter _ _ _ ht)

/-- The calls a toggle makes on the store when the previous value is defined and the
read succeeds: one read, then one write of `toggleValue`. -/
theorem watchAutoscale_calls (id : JSString) (newVal : Option Bool) (b : Bool)
    (cfg : AppConfig) (h : cfg.readFails = false) :
    (watchAutoscale id newVal (some b) cfg).calls =
      [.getConfigValue autoscalingKey,
       .setConfigValue autoscalingKey (toggleValue cfg.autoscaling_clusters id newVal)] := by
  simp only [watchAutoscale, getConfigValue_ok cfg h]
  split <;> rfl

/-! ## Ids with white space around the commas -/

theorem trimEnd_append_blank (x b : JSString) (hx : endsWs x = false) (hb : IsBlank b) :
    trimEnd (x ++ b) = x := by
  induction x with
  | nil =>
    cases b with
    | nil => rfl
    | cons c b =>
      have : (c :: b).all isWhiteSpace = true := by
        rw [List.all_eq_true]; exact hb
      simp [trimEnd, this]
  | cons a x ih =>
    have hall : (a :: x).all isWhiteSpace = false := by
      have h1 := trimEnd_of_not_endsWs (a :: x) hx
      by_contra hcon
      have hcon' : (a :: x).all isWhiteSpace = true := by simpa using hcon
      simp [trimEnd, hcon'] at h1
    have hall' : (a :: (x ++ b)).all isWhiteSpace = false := by
      simp only [List.all_cons, List.all_append, Bool.and_eq_false_iff] at hall ⊢
      rcases hall with h | h
      · exact Or.inl h
      · exact Or.inr (by simp [h])
    have hx' : endsWs x = false := by
      cases x with
      | nil => rfl
      | cons c x => exact hx
    rw [List.cons_append, trimEnd, hall', ih hx']
    simp

theorem startsWs_spaced (x : JSString) (rest : List (JSString × JSString × JSString))
    (hx : IsId x) (trail : JSString) : startsWs (spaced x rest ++ trail) = false := by
  obtain ⟨hne, _, hws⟩ := hx
  cases x with
  | nil => exact absurd rfl hne
  | cons c x =>
    have hc : isWhiteSpace c = false := hws c (List.mem_cons_self _ _)
    cases rest with
    | nil => exact hc
    | cons e rest =>
      obtain ⟨b, a, y⟩ := e
      exact hc

/-- The pieces of ids joined by commas with white space around the commas and
`trail` after the last id, scanned from a state of the loop. -/
theorem splitFrom_spaced (x : JSString) (rest : List (JSString × JSString × JSString))
    (trail tok : JSString) (hx : IsId x) (hrest : SpacedOk rest) (htrail : IsBlank trail) :
    splitFrom tok (spaced x rest ++ trail) =
      appendLast trail ((tok ++ x) :: idsOf rest) := by
  induction rest generalizing x tok with
  | nil =>
    have hc : ',' ∉ x ++ trail := by
      intro hm
      rcases List.mem_append.mp hm with h | h
      · exact hx.2.1 h
      · exact htrail.noComma h
    simp only [spaced, idsOf, List.map_nil, appendLast]
    rw [splitFrom_noComma_eq _ hc]
    simp
  | cons e rest ih =>
    obtain ⟨b, a, y⟩ := e
    have he := hrest (b, a, y) (List.mem_cons_self _ _)
    have hrest' : SpacedOk rest := fun e' he' => hrest e' (List.mem_cons_of_mem _ he')
    have hc : ',' ∉ x ++ b := by
      intro hm
      rcases List.mem_append.mp hm with h | h
      · exact hx.2.1 h
      · exact he.1.noComma h
    have hstr : spaced x ((b, a, y) :: rest) ++ trail =
        (x ++ b) ++ ',' :: (a ++ (spaced y rest ++ trail)) := by
      simp [spaced]
    rw [hstr, splitFrom_append_comma _ _ hc, trimEnd_append_blank x b hx.endsWs he.1,
      List.dropWhile_append_of_pos he.2.1,
      dropWhile_of_not_startsWs (startsWs_spaced y rest he.2.2 trail),
      ih y [] he.2.2 hrest']
    simp [idsOf, appendLast]

theorem splitFrom_blank (lead r tok : JSString) (hl : IsBlank lead)
    (hr : matchSeparator r = none) : splitFrom tok (lead ++ r) = splitFrom (tok ++ lead) r := by
  induction lead generalizing tok with
  | nil => simp
  | cons c lead ih =>
    have hc : isWhiteSpace c = true := hl c (List.mem_cons_self _ _)
    have hl' : IsBlank lead := fun d hd => hl d (List.mem_cons_of_mem _ hd)
    have hm : ∀ l : JSString, IsBlank l → matchSeparator (l ++ r) = none := by
      intro l
      induction l with
      | nil => intro _; exact hr
      | cons d l ihl =>
        intro hbl
        rw [List.cons_append, matchSeparator_ws (hbl d (List.mem_cons_self _ _))]
        exact ihl fun e he => hbl e (List.mem_cons_of_mem _ he)
    have h1 : matchSeparator (c :: (lead ++ r)) = none := hm (c :: lead) hl
    rw [List.cons_append, splitFrom_none h1, ih _ hl']
    simp

/-- The pieces of ids joined by commas, with white space around the commas, `lead`
before the first id and `trail` after the last: the ids, with `lead` kept on the
first and `trail` kept on the last. -/
theorem split_spaced (lead x : JSString) (rest : List (JSString × JSString × JSString))
    (trail : JSString) (hl : IsBlank lead) (hx : IsId x) (hrest : SpacedOk rest)
    (htrail : IsBlank trail) :
    split (lead ++ spaced x rest ++ trail) =
      appendLast trail (prependFirst lead (x :: idsOf rest)) := by
  have hm : matchSeparator (spaced x rest ++ trail) = none := by
    obtain ⟨hne, hcomma, hws⟩ := hx
    cases x with
    | nil => exact absurd rfl hne
    | cons c x =>
      have hc : isWhiteSpace c = false := hws c (List.mem_cons_self _ _)
      have hcc : c ≠ ',' := fun h => hcomma (h ▸ List.mem_cons_self _ _)
      cases rest with
      | nil => exact matchSeparator_other hc hcc _
      | cons e rest =>
        obtain ⟨b, a, y⟩ := e
        exact matchSeparator_other hc hcc _
  unfold split
  rw [List.append_assoc, splitFrom_blank lead _ [] hl hm,
    splitFrom_spaced x rest trail _ hx hrest htrail]
  simp [prependFirst]

theorem appendLast_nil (L : List JSString) : appendLast [] L = L := by
  induction L with
  | nil => rfl
  | cons x L ih =>
    cases L with
    | nil => simp [appendLast]
    | cons y L => simp only [appendLast, ih]

theorem mem_map_trimEnd_of_not_endsWs (A : List JSString) (t : JSString) (ht : t ∈ A)
    (he : endsWs t = false) : t ∈ A.map trimEnd :=
  List.mem_map.mpr ⟨t, ht, trimEnd_of_not_endsWs t he⟩

theorem map_trimEnd_of_not_endsWs (A : List JSString) (h : ∀ t ∈ A, endsWs t = false) :
    A.map trimEnd = A := by
  induction A with
  | nil => rfl
  | cons a A ih =>
    rw [List.map_cons, trimEnd_of_not_endsWs a (h a (List.mem_cons_self _ _)),
      ih fun t ht => h t (List.mem_cons_of_mem _ ht)]

theorem watchAutoscale_config (id : JSString) (newVal : Option Bool) (b : Bool)
    (cfg : AppConfig) (hr : cfg.readFails = false) (hw : cfg.writeFails = false) :
    (watchAutoscale id newVal (some b) cfg).config =
      { cfg with autoscaling_clusters := toggleValue cfg.autoscaling_clusters id newVal } := by
  simp [watchAutoscale, getConfigValue_ok cfg hr, AppConfig.setConfigValue, hw]

/-- The pieces of the value written when the new flag is `false`: the id is not one
of them, every other piece of `s` is. -/
theorem pieces_without_id (s b : JSString) (hb : IsId b) :
    b ∉ split (toggleValue s b (some false)) ∧
      ∀ t ∈ split s, t ≠ b → t ∈ split (toggleValue s b (some false)) := by
  have hsp := split_toggleValue_false s b (some false) rfl
  constructor
  · rw [hsp]
    split
    · intro h
      exact hb.1 (List.mem_singleton.mp h)
    · intro h
      exact ((mem_arrayRemove _ _ _).mp h).2 rfl
  · intro t ht htb
    have hne : arrayRemove (split s) b ≠ [] := by
      intro hnil
      have : t ∈ arrayRemove (split s) b := (mem_arrayRemove _ _ _).mpr ⟨ht, htb⟩
      rw [hnil] at this
      cases this
    rw [hsp, if_neg hne]
    exact (mem_arrayRemove _ _ _).mpr ⟨ht, htb⟩

/-! ## The annotation of a refresh -/

/-- C1: when the store read succeeds with the membership string `s`, `loadClusterData`
exposes the fetched clusters, in order and with their ids, and the `autoscale` flag of
each is `true` exactly when its id is equal, as a string and without trimming, to one of
the pieces of `s.split(/\s*,\s*/)`, and `false` exactly when it is not. -/
theorem loadClusterData_annotates (results : List Cluster) (scope : ListScope)
    (cfg : AppConfig) (s : JSString) (hread : cfg.getConfigValue autoscalingKey = some s) :
    (loadClusterData results scope cfg).scope.clusters = some (annotate (split s) results) ∧
      (annotate (split s) results).map Cluster.id = results.map Cluster.id ∧
      ∀ c ∈ annotate (split s) results,
        (c.autoscale = some true ↔ c.id ∈ split s) ∧
          (c.autoscale = some false ↔ c.id ∉ split s) := by
  refine ⟨by simp only [loadClusterData, hread], ?_, ?_⟩
  · simp [annotate_eq, Function.comp_def]
  · intro c hc
    rw [annotate_eq, List.mem_map] at hc
    obtain ⟨c0, _, rfl⟩ := hc
    simp

theorem loadClusterData_annotates_witness :
    (loadClusterData [⟨"a".toList, none⟩, ⟨" b".toList, some true⟩, ⟨"b".toList, none⟩]
        ⟨none, none⟩ ⟨"a , b".toList, false, false⟩).scope.clusters =
      some [⟨"a".toList, some true⟩, ⟨" b".toList, some false⟩, ⟨"b".toList, some true⟩] :=
  (loadClusterData_annotates
    [⟨"a".toList, none⟩, ⟨" b".toList, some true⟩, ⟨"b".toList, none⟩]
    ⟨none, none⟩ ⟨"a , b".toList, false, false⟩ "a , b".toList (by decide)).1.trans
    (by decide)

/-- C7, as the code has it: when the membership string read from the store is the
empty string, its one piece is the empty string, and a refresh sets `autoscale` to
`false` on every cluster whose id is not empty and to `true` on a cluster whose id is
the empty string. -/
theorem refresh_empty_store (results : List Cluster) (scope : ListScope) (cfg : AppConfig)
    (hread : cfg.readFails = false) (hval : cfg.autoscaling_clusters = []) :
    (refresh (.resolved (.fetched results)) scope cfg).scope.clusters =
      some (results.map fun c => { c with autoscale := some (decide (c.id = [])) }) := by
  rw [refresh_clusters results scope cfg hread, hval]
  have hs : split ([] : JSString) = [[]] := rfl
  simp [hs]

theorem refresh_empty_store_witness :
    (refresh (.resolved (.fetched [⟨"x".toList, none⟩, ⟨"y".toList, some true⟩]))
        ⟨none, none⟩ ⟨[], false, false⟩).scope.clusters =
      some [⟨"x".toList, some false⟩, ⟨"y".toList, some false⟩] :=
  (refresh_empty_store [⟨"x".toList, none⟩, ⟨"y".toList, some true⟩] ⟨none, none⟩
    ⟨[], false, false⟩ rfl rfl).trans (by decide)

/-- C7 fails as stated: with the empty membership string, a refresh marks the cluster
whose id is the empty string `true`. -/
theorem refresh_empty_store_marks_empty_id :
    (refresh (.resolved (.fetched [⟨[], none⟩, ⟨"x".toList, none⟩]))
        ⟨none, none⟩ ⟨[], false, false⟩).scope.clusters =
      some [⟨[], some true⟩, ⟨"x".toList, some false⟩] := by
  decide

/-- C9: when the listing request fails, for every scope and store before the call,
`refresh` ends with `loading` false and the exposed clusters as they were; it makes no
call on the configuration store, whose value is unchanged, writes the error to the
console and leaves no rejected promise without a handler. -/
theorem refresh_fetch_failure (err : JSString) (scope : ListScope) (cfg : AppConfig) :
    (refresh (.resolved (.failed err)) scope cfg).scope.loading = some false ∧
      (refresh (.resolved (.failed err)) scope cfg).scope.clusters = scope.clusters ∧
      (refresh (.resolved (.failed err)) scope cfg).effects.calls = [] ∧
      (refresh (.resolved (.failed err)) scope cfg).effects.config = cfg ∧
      (refresh (.resolved (.failed err)) scope cfg).effects.console = [err] ∧
      (refresh (.resolved (.failed err)) scope cfg).effects.unhandled = 0 :=
  ⟨rfl, rfl, rfl, rfl, rfl, rfl⟩

/-- C5: for a non-empty list of well-formed ids joined by commas, with any white space
before and after each comma, `split(/\s*,\s*/)` returns exactly the ids in order, and
a refresh that reads this membership string marks a cluster `true` when its id is in
the list and `false` when it is not. -/
theorem split_spaced_commas (x : JSString) (rest : List (JSString × JSString × JSString))
    (hx : IsId x) (hrest : SpacedOk rest) :
    split (spaced x rest) = x :: idsOf rest ∧
      ∀ (results : List Cluster) (scope : ListScope) (cfg : AppConfig),
        cfg.readFails = false → cfg.autoscaling_clusters = spaced x rest →
          (refresh (.resolved (.fetched results)) scope cfg).scope.clusters =
            some (results.map fun c =>
              { c with autoscale := some (decide (c.id ∈ x :: idsOf rest)) }) := by
  have hsplit : split (spaced x rest) = x :: idsOf rest := by
    have h := split_spaced [] x rest [] (fun _ h => by cases h) hx hrest (fun _ h => by cases h)
    simpa [prependFirst, appendLast_nil] using h
  refine ⟨hsplit, ?_⟩
  intro results scope cfg hread hval
  rw [refresh_clusters results scope cfg hread, hval, hsplit]

theorem split_spaced_commas_witness :
    split "x, y , z".toList = ["x".toList, "y".toList, "z".toList] ∧
      (refresh (.resolved (.fetched [⟨"z".toList, none⟩, ⟨"w".toList, none⟩, ⟨"x".toList, none⟩,
          ⟨"y".toList, none⟩])) ⟨none, none⟩ ⟨"x, y , z".toList, false, false⟩).scope.clusters =
        some [⟨"z".toList, some true⟩, ⟨"w".toList, some false⟩, ⟨"x".toList, some true⟩,
          ⟨"y".toList, some true⟩] :=
  have h := split_spaced_commas "x".toList
    [([], " ".toList, "y".toList), (" ".toList, " ".toList, "z".toList)] (by decide) (by decide)
  ⟨h.1, (h.2 _ ⟨none, none⟩ ⟨"x, y , z".toList, false, false⟩ rfl (by decide)).trans (by decide)⟩

/-- C6, as the code has it: for a non-empty list of well-formed ids joined by commas,
with any white space around each comma, `lead` before the first id and `trail` after
the last, the pieces are the ids with `lead` kept on the first and `trail` kept on the
last; a refresh marks a cluster `true` exactly when its id is one of these pieces.
White space around the commas is dropped, white space at the two ends of the string
is not. -/
theorem split_padded (lead x : JSString) (rest : List (JSString × JSString × JSString))
    (trail : JSString) (hl : IsBlank lead) (hx : IsId x) (hrest : SpacedOk rest)
    (htrail : IsBlank trail) :
    split (lead ++ spaced x rest ++ trail) =
        appendLast trail (prependFirst lead (x :: idsOf rest)) ∧
      ∀ (results : List Cluster) (scope : ListScope) (cfg : AppConfig),
        cfg.readFails = false → cfg.autoscaling_clusters = lead ++ spaced x rest ++ trail →
          (refresh (.resolved (.fetched results)) scope cfg).scope.clusters =
            some (results.map fun c => ⟨c.id,
              some (decide (c.id ∈ appendLast trail (prependFirst lead (x :: idsOf rest))))⟩) := by
  have hsplit := split_spaced lead x rest trail hl hx hrest htrail
  refine ⟨hsplit, ?_⟩
  intro results scope cfg hread hval
  rw [refresh_clusters results scope cfg hread, hval, hsplit]

theorem split_padded_witness :
    split " x , y,z  ".toList = [" x".toList, "y".toList, "z  ".toList] :=
  (split_padded " ".toList "x".toList
    [(" ".toList, " ".toList, "y".toList), ([], [], "z".toList)] "  ".toList
    (by decide) (by decide) (by decide) (by decide)).1

/-- C6 fails as stated: with white space before the first id and after the last, a
refresh leaves the clusters with these ids `false`. -/
theorem refresh_padded_ends_unmarked :
    IsBlank " ".toList ∧ IsId "x".toList ∧ IsId "y".toList ∧
      (refresh (.resolved (.fetched [⟨"x".toList, none⟩, ⟨"y".toList, none⟩]))
          ⟨none, none⟩ ⟨" x,y ".toList, false, false⟩).scope.clusters =
        some [⟨"x".toList, some false⟩, ⟨"y".toList, some false⟩] := by
  decide

/-! ## The watcher of `clusterAutoscaleCtrl` -/

/-- C2: for every new value, when the previous value is `undefined` the listener makes
no call on the configuration store and leaves it as it was; the test on the previous
value comes before any call.  When the previous value is defined, the listener reads
the store first and, when the read succeeds, writes `toggleValue` of what it read; the
stored value is replaced when the write succeeds too. -/
theorem watchAutoscale_guard (id : JSString) (newVal : Option Bool) (cfg : AppConfig) :
    (watchAutoscale id newVal none cfg).calls = [] ∧
      (watchAutoscale id newVal none cfg).config = cfg ∧
      ∀ b : Bool,
        (watchAutoscale id newVal (some b) cfg).calls =
            (if cfg.readFails then [.getConfigValue autoscalingKey]
             else [.getConfigValue autoscalingKey,
                   .setConfigValue autoscalingKey
                     (toggleValue cfg.autoscaling_clusters id newVal)]) ∧
          (watchAutoscale id newVal (some b) cfg).config =
            (if cfg.readFails || cfg.writeFails then cfg
             else { cfg with
                    autoscaling_clusters := toggleValue cfg.autoscaling_clusters id newVal }) := by
  refine ⟨rfl, rfl, ?_⟩
  intro b
  cases hr : cfg.readFails with
  | true => simp [watchAutoscale, AppConfig.getConfigValue, hr]
  | false =>
    cases hw : cfg.writeFails with
    | true =>
      simp [watchAutoscale, getConfigValue_ok cfg hr, AppConfig.setConfigValue, hw]
    | false =>
      simp [watchAutoscale, getConfigValue_ok cfg hr, AppConfig.setConfigValue, hw, hr]

/-- C3, as the code has it: when the last piece of the membership string `s` does not
end with white space, a toggle of the well-formed id `c` to `true` (previous value
defined, read successful) writes a value whose pieces are the pieces of `s` other than
`c`, in order, followed by `c`: they contain `c` exactly once and are, as a set, the
pieces of `s` together with `c`.  A second toggle to `true` on the written value
writes a value with the same pieces. -/
theorem toggle_on (s c : JSString) (hc : IsId c) (hs : lastPieceEndsWs s = false) :
    split (toggleValue s c (some true)) = arrayRemove (split s) c ++ [c] ∧
      (split (toggleValue s c (some true))).count c = 1 ∧
      (∀ t, t ∈ split (toggleValue s c (some true)) ↔ t ∈ split s ∨ t = c) ∧
      split (toggleValue (toggleValue s c (some true)) c (some true)) =
        split (toggleValue s c (some true)) ∧
      ∀ (cfg : AppConfig) (b : Bool), cfg.readFails = false → cfg.autoscaling_clusters = s →
        (watchAutoscale c (some true) (some b) cfg).calls =
          [.getConfigValue autoscalingKey,
           .setConfigValue autoscalingKey (toggleValue s c (some true))] := by
  have hA : ∀ t ∈ arrayRemove (split s) c, endsWs t = false := fun t ht =>
    split_endsWs s hs t (List.mem_of_mem_filter ht)
  have h1 : split (toggleValue s c (some true)) = arrayRemove (split s) c ++ [c] := by
    rw [split_toggleValue_true s c hc, map_trimEnd_of_not_endsWs _ hA]
  have hnot : c ∉ arrayRemove (split s) c := fun h => ((mem_arrayRemove _ _ _).mp h).2 rfl
  have hfix : arrayRemove (arrayRemove (split s) c ++ [c]) c = arrayRemove (split s) c := by
    simp [arrayRemove, List.filter_filter]
  refine ⟨h1, ?_, ?_, ?_, ?_⟩
  · rw [h1, List.count_append, List.count_eq_zero_of_not_mem hnot]
    simp
  · intro t
    rw [h1, List.mem_append, mem_arrayRemove, List.mem_singleton]
    constructor
    · rintro (⟨h, _⟩ | h)
      · exact Or.inl h
      · exact Or.inr h
    · rintro (h | h)
      · by_cases htc : t = c
        · exact Or.inr htc
        · exact Or.inl ⟨h, htc⟩
      · exact Or.inr h
  · rw [split_toggleValue_true _ c hc, h1, hfix, map_trimEnd_of_not_endsWs _ hA]
  · intro cfg b hread hval
    rw [watchAutoscale_calls c _ b cfg hread, hval]

theorem toggle_on_witness :
    split (toggleValue "a,b".toList "c".toList (some true)) =
      ["a".toList, "b".toList, "c".toList] :=
  (toggle_on "a,b".toList "c".toList (by decide) (by decide)).1.trans (by decide)

/-- C3 fails as stated: the membership string `"c "` is the id `c` followed by white
space; a toggle of `c` to `true` writes `"c ,c"`, whose pieces contain `c` twice and
do not contain the piece `"c "` of the string read. -/
theorem toggle_on_trailing_space :
    IsId "c".toList ∧ split "c ".toList = ["c ".toList] ∧
      toggleValue "c ".toList "c".toList (some true) = "c ,c".toList ∧
      split (toggleValue "c ".toList "c".toList (some true)) = ["c".toList, "c".toList] ∧
      (split (toggleValue "c ".toList "c".toList (some true))).count "c".toList = 2 ∧
      "c ".toList ∉ split (toggleValue "c ".toList "c".toList (some true)) := by
  decide

/-- C4, as the code has it: a toggle of the well-formed id `b` to `false` (previous
value defined, read successful) writes a value of which `b` is not a piece and of which
every other piece of `s` is a piece.  When `s` has a piece other than `b`, the pieces
of the written value are exactly the pieces of `s` other than `b`, in order; when
every piece of `s` is `b`, the written value is the empty string, whose one piece is
the empty string. -/
theorem toggle_off (s b : JSString) (hb : IsId b) :
    b ∉ split (toggleValue s b (some false)) ∧
      (∀ t ∈ split s, t ≠ b → t ∈ split (toggleValue s b (some false))) ∧
      ((∃ t ∈ split s, t ≠ b) →
        split (toggleValue s b (some false)) = arrayRemove (split s) b ∧
          ∀ t, t ∈ split (toggleValue s b (some false)) ↔ t ∈ split s ∧ t ≠ b) ∧
      ((∀ t ∈ split s, t = b) →
        toggleValue s b (some false) = [] ∧ split (toggleValue s b (some false)) = [[]]) ∧
      ∀ (cfg : AppConfig) (old : Bool), cfg.readFails = false → cfg.autoscaling_clusters = s →
        (watchAutoscale b (some false) (some old) cfg).calls =
          [.getConfigValue autoscalingKey,
           .setConfigValue autoscalingKey (toggleValue s b (some false))] := by
  have hsp := split_toggleValue_false s b (some false) rfl
  have hval : toggleValue s b (some false) = join (arrayRemove (split s) b) := by
    simp [toggleValue, truthy]
  have hsome : (∃ t ∈ split s, t ≠ b) → arrayRemove (split s) b ≠ [] := by
    rintro ⟨t, ht, htb⟩ hnil
    have : t ∈ arrayRemove (split s) b := (mem_arrayRemove _ _ _).mpr ⟨ht, htb⟩
    rw [hnil] at this
    cases this
  have hall : (∀ t ∈ split s, t = b) → arrayRemove (split s) b = [] := by
    intro h
    apply List.eq_nil_iff_forall_not_mem.mpr
    intro t ht
    have := (mem_arrayRemove _ _ _).mp ht
    exact this.2 (h t this.1)
  refine ⟨?_, ?_, ?_, ?_, ?_⟩
  · rw [hsp]
    split
    · intro h
      exact hb.1 (List.mem_singleton.mp h)
    · intro h
      exact ((mem_arrayRemove _ _ _).mp h).2 rfl
  · intro t ht htb
    rw [hsp, if_neg (hsome ⟨t, ht, htb⟩)]
    exact (mem_arrayRemove _ _ _).mpr ⟨ht, htb⟩
  · intro h
    rw [hsp, if_neg (hsome h)]
    exact ⟨rfl, fun t => mem_arrayRemove _ _ _⟩
  · intro h
    rw [hsp, if_pos (hall h), hval, hall h]
    exact ⟨rfl, rfl⟩
  · intro cfg old hread hcfg
    rw [watchAutoscale_calls b _ old cfg hread, hcfg]

theorem toggle_off_witness :
    split (toggleValue "a,b,c".toList "b".toList (some false)) = ["a".toList, "c".toList] :=
  ((toggle_off "a,b,c".toList "b".toList (by decide)).2.2.1
    ⟨"a".toList, by decide, by decide⟩).1.trans (by decide)

/-- C4 fails as stated: on the membership string `"b"`, a toggle of `b` to `false`
writes the empty string, whose pieces are not the empty set of pieces that `"b"` has
without `b`: the empty string is a piece of the written value. -/
theorem toggle_off_last_member :
    IsId "b".toList ∧ split "b".toList = ["b".toList] ∧
      toggleValue "b".toList "b".toList (some false) = [] ∧
      split (toggleValue "b".toList "b".toList (some false)) = [[]] ∧
      arrayRemove (split "b".toList) "b".toList = [] ∧
      ¬ ∀ t, t ∈ split (toggleValue "b".toList "b".toList (some false)) ↔
          t ∈ split "b".toList ∧ t ≠ "b".toList := by
  refine ⟨by decide, by decide, by decide, by decide, by decide, ?_⟩
  intro h
  have h1 := (h []).mp (by decide)
  exact absurd h1.1 (by decide)

/-- C8: for every membership string `s`, splitting with `/\s*,\s*/`, joining with `','`
and splitting again gives the pieces of `s` again, in the same order; the two have the
same elements. -/
theorem split_join_split (s : JSString) :
    split (join (split s)) = split s ∧ ∀ t, t ∈ split (join (split s)) ↔ t ∈ split s := by
  have h : split (join (split s)) = split s :=
    split_join_eq (split s) (splitFrom_ne_nil [] s) (split_shape s).1 (split_shape s).2.1
      (split_shape s).2.2
  exact ⟨h, fun t => by rw [h]⟩

/-- C10, as the code has it: when a toggle of the well-formed id `c` to `v` succeeds
(previous value defined, read and write successful), a refresh on the store it leaves
sets the flag of a cluster with id `c` to `v`; a cluster with another id that is a
piece of the membership string read by the toggle is marked `true` as before, when `v`
is `false`, and when `v` is `true` provided its id does not end with white space. -/
theorem toggle_then_refresh (cfg : AppConfig) (c : JSString) (v old : Bool)
    (results : List Cluster) (scope : ListScope) (hc : IsId c)
    (hread : cfg.readFails = false) (hwrite : cfg.writeFails = false) :
    ∃ clusters,
      (refresh (.resolved (.fetched results)) scope
          (watchAutoscale c (some v) (some old) cfg).config).scope.clusters = some clusters ∧
        clusters.map Cluster.id = results.map Cluster.id ∧
        ∀ k ∈ clusters,
          (k.id = c → k.autoscale = some v) ∧
            (k.id ≠ c → k.id ∈ split cfg.autoscaling_clusters →
              (v = true → endsWs k.id = false) → k.autoscale = some true) := by
  have href := refresh_clusters results scope
    { cfg with autoscaling_clusters := toggleValue cfg.autoscaling_clusters c (some v) } hread
  rw [watchAutoscale_config c (some v) old cfg hread hwrite, href]
  refine ⟨_, rfl, by simp [Function.comp_def], ?_⟩
  intro k hk
  rw [List.mem_map] at hk
  obtain ⟨k0, _, rfl⟩ := hk
  simp only [Option.some.injEq, decide_eq_true_eq]
  cases v with
  | true =>
    have hsp := split_toggleValue_true cfg.autoscaling_clusters c hc
    constructor
    · intro hid
      rw [hid, hsp]
      simp
    · intro hne hmem hend
      rw [hsp]
      exact List.mem_append_left _
        (mem_map_trimEnd_of_not_endsWs _ _ ((mem_arrayRemove _ _ _).mpr ⟨hmem, hne⟩) (hend rfl))
  | false =>
    have hoff := pieces_without_id cfg.autoscaling_clusters c hc
    constructor
    · intro hid
      rw [hid]
      simpa using hoff.1
    · intro hne hmem _
      exact hoff.2 _ hmem hne

theorem toggle_then_refresh_witness :
    ∃ clusters,
      (refresh (.resolved (.fetched [⟨"a".toList, none⟩, ⟨"b".toList, some false⟩]))
          ⟨none, none⟩
          (watchAutoscale "b".toList (some true) (some false)
            ⟨"a".toList, false, false⟩).config).scope.clusters = some clusters ∧
        clusters.map Cluster.id =
          [⟨"a".toList, none⟩, ⟨"b".toList, some false⟩].map Cluster.id ∧
        ∀ k ∈ clusters,
          (k.id = "b".toList → k.autoscale = some true) ∧
            (k.id ≠ "b".toList → k.id ∈ split "a".toList →
              (true = true → endsWs k.id = false) → k.autoscale = some true) :=
  toggle_then_refresh ⟨"a".toList, false, false⟩ "b".toList true false
    [⟨"a".toList, none⟩, ⟨"b".toList, some false⟩] ⟨none, none⟩ (by decide) rfl rfl

/-- C10 fails as stated: on the membership string `"a,b "` the cluster with id `"b "`
is marked `true`; after a successful toggle of `c` to `true` the store holds
`"a,b ,c"`, and a refresh marks the cluster with id `"b "` `false`. -/
theorem toggle_then_refresh_trailing_space :
    IsId "c".toList ∧ "b ".toList ≠ "c".toList ∧ "b ".toList ∈ split "a,b ".toList ∧
      (refresh (.resolved (.fetched [⟨"b ".toList, none⟩])) ⟨none, none⟩
          ⟨"a,b ".toList, false, false⟩).scope.clusters = some [⟨"b ".toList, some true⟩] ∧
      (watchAutoscale "c".toList (some true) (some false)
          ⟨"a,b ".toList, false, false⟩).config = ⟨"a,b ,c".toList, false, false⟩ ∧
      (refresh (.resolved (.fetched [⟨"b ".toList, none⟩])) ⟨none, none⟩
          (watchAutoscale "c".toList (some true) (some false)
            ⟨"a,b ".toList, false, false⟩).config).scope.clusters =
        some [⟨"b ".toList, some false⟩] := by
  decide

end Themis
